import Mathlib

set_option maxRecDepth 8192

/-!
Verification of the identity-resolution core of `src/datasciencetask.py`
(`class PersonTracker`).

The Python class keeps a FAISS `IndexFlatL2` of dimension 512 (`self.index`),
a `defaultdict(list)` from global identity to recorded embeddings
(`self.person_embeddings`) and a counter `self.next_id`.
`match_reid_embedding` performs a k=1 nearest-neighbour query and rejects
when the returned distance is strictly above the threshold; the loop body of
`process_frame` mints a new identity, grows the index and records the
embedding whenever the query misses.

Embeddings are modelled as lists of rationals.  `faiss.IndexFlatL2` computes
the *squared* L2 distance of the query against every stored vector, returns
the slot of the minimum (lowest slot on ties), and both `search` and `add`
assert that the input's dimension equals the index dimension; those library
semantics are embedded in `search1`, `PersonTracker.match_reid_embedding`
and `PersonTracker.resolve` below.
-/

/-- Error raised when an input vector's length differs from the configured
dimension: `faiss` `search`/`add` assert the shape of their argument, and the
resulting exception propagates out of the matching code. -/
inductive ReidError where
  | MalformedEmbedding
deriving DecidableEq

/-- Squared L2 distance between two vectors, the metric `faiss.IndexFlatL2`
computes (all stored vectors have the index dimension). -/
def sqDist (a b : List ℚ) : ℚ :=
  ((a.zip b).map (fun p => (p.1 - p.2) ^ 2)).sum

/-- The k=1 search of `faiss.IndexFlatL2`: the slot and squared-L2 distance of
the stored vector closest to the query, `none` on an empty index.  Ties go
to the lowest slot (first inserted), as in the library's heap selection. -/
def search1 (q : List ℚ) : List (List ℚ) → Option (ℕ × ℚ)
  | [] => none
  | v :: vs =>
    match search1 q vs with
    | none => some (0, sqDist q v)
    | some (j, dt) =>
      if sqDist q v ≤ dt then some (0, sqDist q v) else some (j + 1, dt)

/-- The mutable state of the Python `PersonTracker` relevant to identity
resolution: the index dimension (`self.dimension`), the stored vectors of the
FAISS index in slot order (`self.index`), the `defaultdict(list)` from
identity to its recorded embeddings kept in key-insertion order
(`self.person_embeddings`), and `self.next_id`. -/
structure PersonTracker where
  dimension : ℕ
  index : List (List ℚ)
  person_embeddings : List (ℕ × List (List ℚ))
  next_id : ℕ
deriving DecidableEq

/-- Constructor `PersonTracker.__init__`: dimension 512, empty index, empty store,
`next_id = 0` (the detector / ReID model loading is outside the core). -/
def PersonTracker.init : PersonTracker :=
  { dimension := 512, index := [], person_embeddings := [], next_id := 0 }

/-- Python `self.person_embeddings[id].append(e)` on a `defaultdict(list)`: append
to the entry of an existing key, otherwise append a fresh key at the end. -/
def recordEmbedding (store : List (ℕ × List (List ℚ))) (id : ℕ) (e : List ℚ) :
    List (ℕ × List (List ℚ)) :=
  if store.any (fun p => p.1 == id) then
    store.map (fun p => if p.1 = id then (p.1, p.2 ++ [e]) else p)
  else store ++ [(id, [e])]

/-- Method `PersonTracker.match_reid_embedding(embedding, threshold)`: `None` on an
empty index; otherwise a k=1 search (which asserts the query dimension),
`None` when the distance is strictly above the threshold, else the slot.
The Python default for `threshold` is `0.7`. -/
def PersonTracker.match_reid_embedding (t : PersonTracker) (emb : List ℚ)
    (threshold : ℚ) : Except ReidError (Option ℕ) :=
  if t.index.length = 0 then .ok none
  else if emb.length ≠ t.dimension then .error .MalformedEmbedding
  else
    match search1 emb t.index with
    | none => .ok none
    | some (i, d) => if threshold < d then .ok none else .ok (some i)

/-- The loop body of `PersonTracker.process_frame` for one embedding, i.e.
the spec's `resolve(embedding, threshold)`: reuse the matched slot as the
identity, or mint `next_id`, increment it, `index.add` the embedding (which
asserts its dimension) and record it in `person_embeddings`. -/
def PersonTracker.resolve (t : PersonTracker) (emb : List ℚ) (threshold : ℚ) :
    Except ReidError (ℕ × PersonTracker) :=
  match t.match_reid_embedding emb threshold with
  | .error err => .error err
  | .ok (some i) => .ok (i, t)
  | .ok none =>
    let id := t.next_id
    let t1 : PersonTracker := { t with next_id := t.next_id + 1 }
    if emb.length ≠ t.dimension then .error .MalformedEmbedding
    else
      .ok (id,
        { t1 with
          index := t1.index ++ [emb]
          person_embeddings := recordEmbedding t1.person_embeddings id emb })

/-- Run `resolve` over a sequence of embeddings, returning the identities
handed out, the identities of the minting calls (in minting order, observed
as the calls where `next_id` grew) and the final state. -/
def resolveAll (th : ℚ) (t : PersonTracker) :
    List (List ℚ) → Except ReidError (List ℕ × List ℕ × PersonTracker)
  | [] => .ok ([], [], t)
  | e :: es =>
    match t.resolve e th with
    | .error err => .error err
    | .ok (id, t1) =>
      match resolveAll th t1 es with
      | .error err => .error err
      | .ok (ids, mints, s) =>
        .ok (id :: ids, (if t1.next_id = t.next_id then mints else id :: mints), s)

/-- Number of identities minted by running the whole sequence from a fresh
tracker: the final `next_id`. -/
def mintedCount (th : ℚ) (es : List (List ℚ)) : Option ℕ :=
  match resolveAll th PersonTracker.init es with
  | .ok (_, _, s) => some s.next_id
  | .error _ => none

example : sqDist [1, 2] [3, 5] = 13 := by norm_num [sqDist]
example : search1 [0, 0] [[1, 0], [0, 0], [0, 0]] = some (1, 0) := by
  norm_num [search1, sqDist]

/-! ### Basic facts about the squared-L2 distance -/

lemma sqDist_nil_left (b : List ℚ) : sqDist [] b = 0 := by
  simp [sqDist]

lemma sqDist_cons (a b : ℚ) (as bs : List ℚ) :
    sqDist (a :: as) (b :: bs) = (a - b) ^ 2 + sqDist as bs := by
  simp [sqDist]

lemma sqDist_nonneg (a b : List ℚ) : 0 ≤ sqDist a b := by
  unfold sqDist
  apply List.sum_nonneg
  intro x hx
  obtain ⟨p, _, rfl⟩ := List.mem_map.mp hx
  positivity

lemma sqDist_self (a : List ℚ) : sqDist a a = 0 := by
  induction a with
  | nil => simp [sqDist]
  | cons x xs ih => rw [sqDist_cons, ih]; ring

lemma sqDist_eq_zero (a b : List ℚ) (hlen : a.length = b.length) :
    sqDist a b = 0 ↔ a = b := by
  constructor
  · intro h
    induction a generalizing b with
    | nil => cases b with
      | nil => rfl
      | cons y ys => simp at hlen
    | cons x xs ih =>
      cases b with
      | nil => simp at hlen
      | cons y ys =>
        rw [sqDist_cons] at h
        have h1 : (0:ℚ) ≤ (x - y) ^ 2 := by positivity
        have h2 := sqDist_nonneg xs ys
        have hx : (x - y) ^ 2 = 0 := by linarith
        have hs : sqDist xs ys = 0 := by linarith
        have hxy : x = y := by
          have := pow_eq_zero_iff (n := 2) (by norm_num) |>.mp hx
          linarith [sub_eq_zero.mp this]
        have hlen2 : xs.length = ys.length := by simpa using hlen
        rw [hxy, ih ys hlen2 hs]
  · rintro rfl
    exact sqDist_self a

lemma sqDist_replicate_self (n : ℕ) (c : ℚ) :
    sqDist (List.replicate n c) (List.replicate n c) = 0 :=
  sqDist_self _

/-! ### The k=1 search: slot of the minimum, lowest slot on ties -/

lemma search1_eq_none (q : List ℚ) (idx : List (List ℚ)) :
    search1 q idx = none ↔ idx = [] := by
  cases idx with
  | nil => simp [search1]
  | cons v vs =>
    simp only [search1]
    constructor
    · intro h
      cases hr : search1 q vs with
      | none => rw [hr] at h; simp at h
      | some p =>
        obtain ⟨j, dt⟩ := p
        rw [hr] at h
        by_cases hle : sqDist q v ≤ dt <;> simp [hle] at h
    · intro h; cases h

lemma search1_isSome (q : List ℚ) (idx : List (List ℚ)) (h : idx ≠ []) :
    ∃ i d, search1 q idx = some (i, d) := by
  cases hr : search1 q idx with
  | none => exact absurd ((search1_eq_none q idx).mp hr) h
  | some p =>
    obtain ⟨i, d⟩ := p
    exact ⟨i, d, rfl⟩

/-- Full characterisation of the k=1 search result: the slot is in range, the
distance is the squared-L2 distance at that slot, it is a global minimum, and
every earlier slot has strictly larger distance (lowest-slot tie-break). -/
lemma search1_spec (q : List ℚ) :
    ∀ (idx : List (List ℚ)) (i : ℕ) (d : ℚ),
      search1 q idx = some (i, d) →
      ∃ hi : i < idx.length,
        d = sqDist q (idx.get ⟨i, hi⟩) ∧
        (∀ j (hj : j < idx.length), d ≤ sqDist q (idx.get ⟨j, hj⟩)) ∧
        (∀ j (hj : j < idx.length), j < i → d < sqDist q (idx.get ⟨j, hj⟩))
  | [], i, d, h => by simp [search1] at h
  | v :: vs, i, d, h => by
    cases hr : search1 q vs with
    | none =>
      simp only [search1, hr] at h
      have hvs : vs = [] := (search1_eq_none q vs).mp hr
      subst hvs
      injection h with h'
      injection h' with hi hd
      subst hi
      subst hd
      refine ⟨by simp, by simp, ?_, ?_⟩
      · intro j hj
        have hj0 : j = 0 := by simp at hj; omega
        subst hj0
        simp
      · intro j hj hji
        omega
    | some p =>
      obtain ⟨j, dt⟩ := p
      simp only [search1, hr] at h
      obtain ⟨hj, hdt, hmin, hfirst⟩ := search1_spec q vs j dt hr
      by_cases hle : sqDist q v ≤ dt
      · rw [if_pos hle] at h
        injection h with h'
        injection h' with hi hd
        subst hi
        subst hd
        refine ⟨Nat.succ_pos _, by simp, ?_, ?_⟩
        · intro k hk
          cases k with
          | zero => simp
          | succ k' =>
            have hk' : k' < vs.length := by simpa using hk
            have := hmin k' hk'
            simpa using le_trans hle this
        · intro k hk hki
          omega
      · rw [if_neg hle] at h
        injection h with h'
        injection h' with hi hd
        subst hi
        subst hd
        push_neg at hle
        refine ⟨by simp [Nat.succ_lt_succ hj], ?_, ?_, ?_⟩
        · simpa using hdt
        · intro k hk
          cases k with
          | zero => simpa using le_of_lt hle
          | succ k' =>
            have hk' : k' < vs.length := by simpa using hk
            simpa using hmin k' hk'
        · intro k hk hki
          cases k with
          | zero => simpa using hle
          | succ k' =>
            have hk' : k' < vs.length := by simpa using hk
            have hki' : k' < j := by omega
            simpa using hfirst k' hk' hki'

/-! ### Unfolding lemmas for matching and resolution -/

lemma match_reid_eq_some (t : PersonTracker) (e : List ℚ) (th : ℚ) (i : ℕ) (d : ℚ)
    (hd : e.length = t.dimension)
    (hs : search1 e t.index = some (i, d)) (hth : d ≤ th) :
    t.match_reid_embedding e th = .ok (some i) := by
  have hne : ¬ t.index.length = 0 := by
    intro h0
    rw [List.length_eq_zero] at h0
    rw [h0] at hs
    simp [search1] at hs
  have hd' : ¬ e.length ≠ t.dimension := by simp [hd]
  have hnlt : ¬ th < d := not_lt.mpr hth
  simp only [PersonTracker.match_reid_embedding, if_neg hne, if_neg hd', hs, if_neg hnlt]

lemma match_reid_eq_none_empty (t : PersonTracker) (e : List ℚ) (th : ℚ)
    (h : t.index = []) : t.match_reid_embedding e th = .ok none := by
  simp [PersonTracker.match_reid_embedding, h]

lemma match_reid_eq_none_far (t : PersonTracker) (e : List ℚ) (th : ℚ) (i : ℕ) (d : ℚ)
    (hd : e.length = t.dimension)
    (hs : search1 e t.index = some (i, d)) (hth : th < d) :
    t.match_reid_embedding e th = .ok none := by
  have hne : ¬ t.index.length = 0 := by
    intro h0
    rw [List.length_eq_zero] at h0
    rw [h0] at hs
    simp [search1] at hs
  have hd' : ¬ e.length ≠ t.dimension := by simp [hd]
  simp only [PersonTracker.match_reid_embedding, if_neg hne, if_neg hd', hs, if_pos hth]

lemma resolve_matched (t : PersonTracker) (e : List ℚ) (th : ℚ) (i : ℕ) (d : ℚ)
    (hd : e.length = t.dimension)
    (hs : search1 e t.index = some (i, d)) (hth : d ≤ th) :
    t.resolve e th = .ok (i, t) := by
  simp only [PersonTracker.resolve, match_reid_eq_some t e th i d hd hs hth]

lemma resolve_minted (t : PersonTracker) (e : List ℚ) (th : ℚ)
    (hd : e.length = t.dimension)
    (hmiss : t.index = [] ∨ ∃ i d, search1 e t.index = some (i, d) ∧ th < d) :
    t.resolve e th = .ok (t.next_id,
      { t with next_id := t.next_id + 1
               index := t.index ++ [e]
               person_embeddings := recordEmbedding t.person_embeddings t.next_id e }) := by
  have hm : t.match_reid_embedding e th = .ok none := by
    rcases hmiss with h | ⟨i, d, hs, hth⟩
    · exact match_reid_eq_none_empty t e th h
    · exact match_reid_eq_none_far t e th i d hd hs hth
  have hd' : ¬ e.length ≠ t.dimension := by simp [hd]
  simp only [PersonTracker.resolve, hm, if_neg hd']

lemma resolve_malformed (t : PersonTracker) (e : List ℚ) (th : ℚ)
    (hd : e.length ≠ t.dimension) :
    t.resolve e th = .error .MalformedEmbedding := by
  by_cases h0 : t.index.length = 0
  · have hm : t.match_reid_embedding e th = .ok none := by
      simp only [PersonTracker.match_reid_embedding, if_pos h0]
    simp only [PersonTracker.resolve, hm, if_pos hd]
  · have hm : t.match_reid_embedding e th = .error .MalformedEmbedding := by
      simp only [PersonTracker.match_reid_embedding, if_neg h0, if_pos hd]
    simp only [PersonTracker.resolve, hm]

lemma recordEmbedding_new (store : List (ℕ × List (List ℚ))) (id : ℕ) (e : List ℚ)
    (h : ∀ p ∈ store, p.1 ≠ id) :
    recordEmbedding store id e = store ++ [(id, [e])] := by
  have hc : ¬ (store.any fun p => p.1 == id) = true := by
    rw [List.any_eq_true]
    rintro ⟨p, hp, hpe⟩
    exact h p hp (by simpa using hpe)
  unfold recordEmbedding
  rw [if_neg hc]

/-! ### The state invariant -/

/-- Invariant of a tracker state reachable from `PersonTracker.init` with
well-formed inputs: the index size equals `next_id`, the store keys are
exactly `0, 1, ..., next_id - 1` in insertion order, the store entry at
position `i` holds exactly the vector of index slot `i`, and every stored
vector has the index dimension. -/
def TrackerInv (t : PersonTracker) : Prop :=
  t.index.length = t.next_id ∧
  t.person_embeddings.map Prod.fst = List.range t.next_id ∧
  t.person_embeddings.map Prod.snd = t.index.map (fun e => [e]) ∧
  ∀ v ∈ t.index, v.length = t.dimension

lemma TrackerInv_init : TrackerInv PersonTracker.init := by
  refine ⟨rfl, rfl, rfl, ?_⟩
  intro v hv
  simp [PersonTracker.init] at hv

lemma TrackerInv.store_length (t : PersonTracker) (h : TrackerInv t) :
    t.person_embeddings.length = t.next_id := by
  have := congrArg List.length h.2.1
  simpa using this

lemma TrackerInv.store_fst (t : PersonTracker) (h : TrackerInv t) (i : ℕ)
    (hi : i < t.person_embeddings.length) :
    (t.person_embeddings.get ⟨i, hi⟩).1 = i := by
  have hg := List.get_of_eq h.2.1 ⟨i, by simpa using hi⟩
  simpa using hg

lemma TrackerInv.fresh (t : PersonTracker) (h : TrackerInv t) :
    ∀ p ∈ t.person_embeddings, p.1 ≠ t.next_id := by
  intro p hp
  have hm : p.1 ∈ t.person_embeddings.map Prod.fst := List.mem_map_of_mem _ hp
  rw [h.2.1] at hm
  have := List.mem_range.mp hm
  omega

lemma TrackerInv.mint (t : PersonTracker) (e : List ℚ) (hInv : TrackerInv t)
    (hd : e.length = t.dimension) :
    TrackerInv
      { t with
        next_id := t.next_id + 1
        index := t.index ++ [e]
        person_embeddings := recordEmbedding t.person_embeddings t.next_id e } := by
  obtain ⟨h1, h2, h3, h4⟩ := hInv
  have hfresh := TrackerInv.fresh t ⟨h1, h2, h3, h4⟩
  refine ⟨?_, ?_, ?_, ?_⟩
  · simp [h1]
  · show (recordEmbedding t.person_embeddings t.next_id e).map Prod.fst
        = List.range (t.next_id + 1)
    rw [recordEmbedding_new _ _ _ hfresh, List.map_append, h2, List.range_succ]
    rfl
  · show (recordEmbedding t.person_embeddings t.next_id e).map Prod.snd
        = (t.index ++ [e]).map (fun e => [e])
    rw [recordEmbedding_new _ _ _ hfresh, List.map_append, h3, List.map_append]
    simp
  · show ∀ v ∈ t.index ++ [e], v.length = t.dimension
    intro v hv
    rcases List.mem_append.mp hv with hv | hv
    · exact h4 v hv
    · rw [List.mem_singleton.mp hv]; exact hd

/-! ### Runs over sequences of embeddings -/

/-- Master lemma: running a sequence of well-formed embeddings from an
invariant state succeeds, preserves the invariant, never decreases
`next_id`, mints exactly the consecutive identities from the starting
`next_id`, and returns only identities below the final `next_id`. -/
lemma resolveAll_ok (th : ℚ) (es : List (List ℚ)) :
    ∀ (t : PersonTracker), TrackerInv t → (∀ e ∈ es, e.length = t.dimension) →
      ∃ ids mints s,
        resolveAll th t es = .ok (ids, mints, s) ∧
        TrackerInv s ∧
        s.dimension = t.dimension ∧
        t.next_id ≤ s.next_id ∧
        mints = List.range' t.next_id (s.next_id - t.next_id) ∧
        (∀ id ∈ ids, id < s.next_id) ∧
        (∀ m ∈ mints, m ∈ ids) := by
  induction es with
  | nil =>
    intro t hInv _
    exact ⟨[], [], t, rfl, hInv, rfl, le_refl _, by simp, by simp, by simp⟩
  | cons e es ih =>
    intro t hInv hwf
    have hd : e.length = t.dimension := hwf e (by simp)
    have hwf' : ∀ x ∈ es, x.length = t.dimension := fun x hx => hwf x (by simp [hx])
    by_cases hmatch : ∃ i d, search1 e t.index = some (i, d) ∧ d ≤ th
    · obtain ⟨i, d, hs, hacc⟩ := hmatch
      obtain ⟨ids, mints, s, hrun, hInvS, hdim, hle, hmints, hids, hsub⟩ := ih t hInv hwf'
      refine ⟨i :: ids, mints, s, ?_, hInvS, hdim, hle, hmints, ?_, ?_⟩
      · simp only [resolveAll, resolve_matched t e th i d hd hs hacc, hrun, if_pos rfl]
        simp
      · intro id hid
        rcases List.mem_cons.mp hid with rfl | hid
        · obtain ⟨hi, _, _, _⟩ := search1_spec e t.index id d hs
          have hlt : id < t.next_id := hInv.1 ▸ hi
          omega
        · exact hids id hid
      · intro m hm
        exact List.mem_cons_of_mem _ (hsub m hm)
    · have hmiss : t.index = [] ∨ ∃ i d, search1 e t.index = some (i, d) ∧ th < d := by
        by_cases hempty : t.index = []
        · exact Or.inl hempty
        · obtain ⟨i, d, hs⟩ := search1_isSome e t.index hempty
          refine Or.inr ⟨i, d, hs, ?_⟩
          by_contra hnot
          push_neg at hnot
          exact hmatch ⟨i, d, hs, hnot⟩
      have hres := resolve_minted t e th hd hmiss
      have hInv' := TrackerInv.mint t e hInv hd
      obtain ⟨ids, mints, s, hrun, hInvS, hdim, hle, hmints, hids, hsub⟩ :=
        ih _ hInv' (by simpa using hwf')
      have hle' : t.next_id + 1 ≤ s.next_id := by simpa using hle
      refine ⟨t.next_id :: ids, t.next_id :: mints, s, ?_, hInvS, by simpa using hdim,
        by omega, ?_, ?_, ?_⟩
      · simp only [resolveAll, hres, hrun]
        rw [if_neg (by simp)]
      · have harith : s.next_id - t.next_id = (s.next_id - (t.next_id + 1)) + 1 := by
          omega
        rw [harith, List.range'_succ]
        have hmints' : mints = List.range' (t.next_id + 1) (s.next_id - (t.next_id + 1)) := by
          simpa using hmints
        rw [hmints']
      · intro id hid
        rcases List.mem_cons.mp hid with rfl | hid
        · omega
        · exact hids id hid
      · intro m hm
        rcases List.mem_cons.mp hm with rfl | hm
        · exact List.mem_cons_self _ _
        · exact List.mem_cons_of_mem _ (hsub m hm)

/-- Runs compose: executing `es1 ++ es2` is executing `es1`, then `es2` from
the intermediate state, concatenating the returned and minted identities. -/
lemma resolveAll_append (th : ℚ) (es1 es2 : List (List ℚ)) :
    ∀ (t : PersonTracker) ids1 m1 s1 ids2 m2 s2,
      resolveAll th t es1 = .ok (ids1, m1, s1) →
      resolveAll th s1 es2 = .ok (ids2, m2, s2) →
      resolveAll th t (es1 ++ es2) = .ok (ids1 ++ ids2, m1 ++ m2, s2) := by
  induction es1 with
  | nil =>
    intro t ids1 m1 s1 ids2 m2 s2 h1 h2
    simp only [resolveAll] at h1
    injection h1 with h1'
    injection h1' with ha hbc
    injection hbc with hb hc
    subst ha
    subst hb
    subst hc
    simpa using h2
  | cons e es ih =>
    intro t ids1 m1 s1 ids2 m2 s2 h1 h2
    cases hres : t.resolve e th with
    | error err =>
      simp only [resolveAll, hres] at h1
      exact Except.noConfusion h1
    | ok p =>
      obtain ⟨id, t1⟩ := p
      cases hrun : resolveAll th t1 es with
      | error err =>
        simp only [resolveAll, hres, hrun] at h1
        exact Except.noConfusion h1
      | ok q =>
        obtain ⟨ids, q'⟩ := q
        obtain ⟨mints, s⟩ := q'
        simp only [resolveAll, hres, hrun] at h1
        injection h1 with h1'
        injection h1' with ha hbc
        injection hbc with hb hc
        subst ha
        subst hb
        subst hc
        have hstep := ih t1 ids mints s ids2 m2 s2 hrun h2
        simp only [List.cons_append, resolveAll, hres, hstep]
        by_cases hcnd : t1.next_id = t.next_id <;> simp [hcnd, hstep]

/-! ### Concrete embeddings and states for witnesses and counterexamples -/

/-- Test vector of dimension 512: `(0, 5, 0, ..., 0)`. -/
def exA : List ℚ := 0 :: 5 :: List.replicate 510 0
/-- Test vector of dimension 512: `(0, 0, 0, ..., 0)`. -/
def exB : List ℚ := List.replicate 512 0
/-- Test vector of dimension 512: `(4, 0, 0, ..., 0)`. -/
def exC : List ℚ := 4 :: List.replicate 511 0
/-- Test vector of dimension 512: `(-4, 0, 0, ..., 0)`. -/
def exD : List ℚ := (-4) :: List.replicate 511 0

lemma sqDist_two (a1 a2 b1 b2 : ℚ) (n : ℕ) :
    sqDist (a1 :: a2 :: List.replicate n 0) (b1 :: b2 :: List.replicate n 0)
      = (a1 - b1) ^ 2 + (a2 - b2) ^ 2 := by
  rw [sqDist_cons, sqDist_cons, sqDist_replicate_self]
  ring

lemma dist_BA : sqDist exB exA = 25 := by
  show sqDist ((0:ℚ) :: 0 :: List.replicate 510 0) ((0:ℚ) :: 5 :: List.replicate 510 0) = 25
  rw [sqDist_two]
  norm_num

lemma dist_CA : sqDist exC exA = 41 := by
  show sqDist ((4:ℚ) :: 0 :: List.replicate 510 0) ((0:ℚ) :: 5 :: List.replicate 510 0) = 41
  rw [sqDist_two]
  norm_num

lemma dist_CB : sqDist exC exB = 16 := by
  show sqDist ((4:ℚ) :: 0 :: List.replicate 510 0) ((0:ℚ) :: 0 :: List.replicate 510 0) = 16
  rw [sqDist_two]
  norm_num

lemma dist_DA : sqDist exD exA = 41 := by
  show sqDist ((-4:ℚ) :: 0 :: List.replicate 510 0) ((0:ℚ) :: 5 :: List.replicate 510 0) = 41
  rw [sqDist_two]
  norm_num

lemma dist_DB : sqDist exD exB = 16 := by
  show sqDist ((-4:ℚ) :: 0 :: List.replicate 510 0) ((0:ℚ) :: 0 :: List.replicate 510 0) = 16
  rw [sqDist_two]
  norm_num

lemma dist_DC : sqDist exD exC = 64 := by
  show sqDist ((-4:ℚ) :: 0 :: List.replicate 510 0) ((4:ℚ) :: 0 :: List.replicate 510 0) = 64
  rw [sqDist_two]
  norm_num

/-- State after resolving `exA` from a fresh tracker. -/
def cexS1 : PersonTracker :=
  { dimension := 512, index := [exA], person_embeddings := [(0, [exA])], next_id := 1 }

/-- State after additionally minting `exB`. -/
def cexS2 : PersonTracker :=
  { dimension := 512, index := [exA, exB],
    person_embeddings := [(0, [exA]), (1, [exB])], next_id := 2 }

/-- State after resolving `exA` then minting `exC`. -/
def cexT2 : PersonTracker :=
  { dimension := 512, index := [exA, exC],
    person_embeddings := [(0, [exA]), (1, [exC])], next_id := 2 }

/-- State after resolving `exA`, minting `exC`, then minting `exD`. -/
def cexT3 : PersonTracker :=
  { dimension := 512, index := [exA, exC, exD],
    person_embeddings := [(0, [exA]), (1, [exC]), (2, [exD])], next_id := 3 }

lemma cex_step1 (th : ℚ) : PersonTracker.init.resolve exA th = .ok (0, cexS1) :=
  resolve_minted PersonTracker.init exA th (by decide) (Or.inl rfl)

lemma searchB_S1 : search1 exB cexS1.index = some (0, 25) := by
  have h : search1 exB [exA] = some (0, sqDist exB exA) := rfl
  rw [dist_BA] at h
  exact h

lemma searchC_S1 : search1 exC cexS1.index = some (0, 41) := by
  have h : search1 exC [exA] = some (0, sqDist exC exA) := rfl
  rw [dist_CA] at h
  exact h

lemma cex_step2_mint (th : ℚ) (hth : th < 25) : cexS1.resolve exB th = .ok (1, cexS2) :=
  resolve_minted cexS1 exB th (by decide) (Or.inr ⟨0, 25, searchB_S1, hth⟩)

lemma cex_step2_match (th : ℚ) (hth : 25 ≤ th) : cexS1.resolve exB th = .ok (0, cexS1) :=
  resolve_matched cexS1 exB th 0 25 (by decide) searchB_S1 hth

lemma cex_step3_mint (th : ℚ) (hth : th < 41) : cexS1.resolve exC th = .ok (1, cexT2) :=
  resolve_minted cexS1 exC th (by decide) (Or.inr ⟨0, 41, searchC_S1, hth⟩)

lemma searchC_S2 : search1 exC cexS2.index = some (1, 16) := by
  show search1 exC [exA, exB] = some (1, 16)
  simp only [search1]
  rw [dist_CA, dist_CB]
  norm_num

lemma searchD_S2 : search1 exD cexS2.index = some (1, 16) := by
  show search1 exD [exA, exB] = some (1, 16)
  simp only [search1]
  rw [dist_DA, dist_DB]
  norm_num

lemma searchD_T2 : search1 exD cexT2.index = some (0, 41) := by
  show search1 exD [exA, exC] = some (0, 41)
  simp only [search1]
  rw [dist_DA, dist_DC]
  norm_num

lemma cex_step3_match (th : ℚ) (hth : 16 ≤ th) : cexS2.resolve exC th = .ok (1, cexS2) :=
  resolve_matched cexS2 exC th 1 16 (by decide) searchC_S2 hth

lemma cex_step4_match (th : ℚ) (hth : 16 ≤ th) : cexS2.resolve exD th = .ok (1, cexS2) :=
  resolve_matched cexS2 exD th 1 16 (by decide) searchD_S2 hth

lemma cex_step4_mint (th : ℚ) (hth : th < 41) : cexT2.resolve exD th = .ok (2, cexT3) :=
  resolve_minted cexT2 exD th (by decide) (Or.inr ⟨0, 41, searchD_T2, hth⟩)

lemma cex_run16 :
    resolveAll 16 PersonTracker.init [exA, exB, exC, exD]
      = .ok ([0, 1, 1, 1], [0, 1], cexS2) := by
  simp only [resolveAll, cex_step1 16, cex_step2_mint 16 (by norm_num),
    cex_step3_match 16 (by norm_num), cex_step4_match 16 (by norm_num)]
  simp [cexS1, cexS2, PersonTracker.init]

lemma cex_run28 :
    resolveAll 28 PersonTracker.init [exA, exB, exC, exD]
      = .ok ([0, 0, 1, 2], [0, 1, 2], cexT3) := by
  simp only [resolveAll, cex_step1 28, cex_step2_match 28 (by norm_num),
    cex_step3_mint 28 (by norm_num), cex_step4_mint 28 (by norm_num)]
  simp [cexS1, cexT2, cexT3, PersonTracker.init]

lemma run_A : resolveAll (7/10) PersonTracker.init [exA] = .ok ([0], [0], cexS1) := by
  simp only [resolveAll, cex_step1 (7/10)]
  simp [cexS1, PersonTracker.init]

lemma run_AC :
    resolveAll (7/10) PersonTracker.init [exA, exC] = .ok ([0, 1], [0, 1], cexT2) := by
  simp only [resolveAll, cex_step1 (7/10), cex_step3_mint (7/10) (by norm_num)]
  simp [cexS1, cexT2, PersonTracker.init]

/-- A small invariant state used in per-call witnesses: dimension 2, one
stored vector `[0, 0]` under identity 0, `next_id = 1`. -/
def t0 : PersonTracker :=
  { dimension := 2, index := [[0, 0]], person_embeddings := [(0, [[0, 0]])], next_id := 1 }

lemma t0_inv : TrackerInv t0 := by
  refine ⟨rfl, rfl, rfl, ?_⟩
  intro v hv
  simp only [t0, List.mem_singleton] at hv
  subst hv
  rfl

lemma search_t0 : search1 [0, 0] t0.index = some (0, 0) := by
  have h : search1 [(0:ℚ), 0] [[0, 0]] = some (0, sqDist [0, 0] [0, 0]) := rfl
  rw [sqDist_self] at h
  exact h

/-- Slot of the first occurrence of a vector in the index (the slot the
vector was assigned when it was first inserted). -/
def firstSlot (e : List ℚ) : List (List ℚ) → ℕ
  | [] => 0
  | v :: vs => if v = e then 0 else firstSlot e vs + 1

/-- Characterisation of `firstSlot`: the element is there at that slot and at no
earlier slot. -/
lemma firstSlot_of_first (e : List ℚ) :
    ∀ (l : List (List ℚ)) (i : ℕ) (hi : i < l.length), l.get ⟨i, hi⟩ = e →
      (∀ j (hj : j < l.length), j < i → l.get ⟨j, hj⟩ ≠ e) →
      firstSlot e l = i
  | [], i, hi, _, _ => by simp at hi
  | b :: bs, i, hi, hget, hfirst => by
    cases i with
    | zero =>
      have hb : b = e := by simpa using hget
      simp [firstSlot, hb]
    | succ i' =>
      have hb : b ≠ e := by
        have := hfirst 0 (by simp) (Nat.succ_pos _)
        simpa using this
      have hi' : i' < bs.length := by simpa using hi
      have hget' : bs.get ⟨i', hi'⟩ = e := by simpa using hget
      have hfirst' : ∀ j (hj : j < bs.length), j < i' → bs.get ⟨j, hj⟩ ≠ e := by
        intro j hj hji
        have := hfirst (j + 1) (by simpa using hj) (by omega)
        simpa using this
      rw [firstSlot, if_neg hb, firstSlot_of_first e bs i' hi' hget' hfirst']

lemma okTriple_inj {a1 a2 b1 b2 : List ℕ} {c1 c2 : PersonTracker}
    (h : (Except.ok (a1, b1, c1) : Except ReidError (List ℕ × List ℕ × PersonTracker))
      = .ok (a2, b2, c2)) :
    a1 = a2 ∧ b1 = b2 ∧ c1 = c2 := by
  injection h with h1
  injection h1 with ha h2
  injection h2 with hb hc
  exact ⟨ha, hb, hc⟩

/-! ### Claim theorems -/

/-- C1, counterexample: threshold monotonicity over a *sequence* of resolve
calls fails.  On the fixed input sequence `[exA, exB, exC, exD]` the run with
threshold 16 mints 2 identities but the run with the larger threshold 28
mints 3: raising the threshold absorbed `exB` into `exA`'s identity, so
`exB` was never stored, and later `exC` and `exD` (both within 16 of `exB`
but beyond 28 of everything stored) each minted a fresh identity. -/
theorem C1_threshold_monotonicity_counterexample :
    (16 : ℚ) ≤ 28 ∧
    mintedCount 16 [exA, exB, exC, exD] = some 2 ∧
    mintedCount 28 [exA, exB, exC, exD] = some 3 ∧
    ¬ ((3 : ℕ) ≤ 2) := by
  refine ⟨by norm_num, ?_, ?_, by norm_num⟩
  · rw [mintedCount, cex_run16]
    rfl
  · rw [mintedCount, cex_run28]
    rfl

/-- C1, amended: threshold monotonicity holds for each *single* `resolve`
call against a fixed state: a call accepted (not minting) at threshold `t1`
is accepted with the same returned identity and unchanged state at every
threshold `t2 ≥ t1`; equivalently, raising the threshold can never turn an
accepted match of one call into a mint.  The sequence-level count of minted
identities is not monotone in the threshold (see the counterexample). -/
theorem C1_single_call_threshold_monotonicity (t : PersonTracker) (e : List ℚ)
    (t1 t2 : ℚ) (i : ℕ) (d : ℚ) (hd : e.length = t.dimension) (h12 : t1 ≤ t2)
    (hs : search1 e t.index = some (i, d)) (hacc : d ≤ t1) :
    t.resolve e t1 = .ok (i, t) ∧ t.resolve e t2 = .ok (i, t) :=
  ⟨resolve_matched t e t1 i d hd hs hacc,
   resolve_matched t e t2 i d hd hs (le_trans hacc h12)⟩

theorem C1_single_call_threshold_monotonicity_witness :
    t0.resolve [0, 0] 0 = .ok (0, t0) ∧ t0.resolve [0, 0] 1 = .ok (0, t0) :=
  C1_single_call_threshold_monotonicity t0 [0, 0] 0 1 0 0 rfl (by norm_num)
    search_t0 le_rfl

/-- C2: `resolve` accepts a match exactly when the index is non-empty and
the nearest stored vector's distance is at most the threshold; in that case
it returns the slot of the nearest vector, whose identity in the store is
that same slot number, and the state is unchanged.  Otherwise (empty index
or nearest distance strictly above the threshold) it returns the current
`next_id`, increments it, and appends the embedding to both the index and
the store under the new identity. -/
theorem C2_resolve_functional_spec (t : PersonTracker) (e : List ℚ) (th : ℚ)
    (hInv : TrackerInv t) (hd : e.length = t.dimension) :
    (∀ i d, search1 e t.index = some (i, d) → d ≤ th →
      t.resolve e th = .ok (i, t) ∧
      ∃ hi : i < t.person_embeddings.length, (t.person_embeddings.get ⟨i, hi⟩).1 = i) ∧
    ((t.index = [] ∨ ∀ i d, search1 e t.index = some (i, d) → th < d) →
      t.resolve e th = .ok (t.next_id,
        { t with
          next_id := t.next_id + 1
          index := t.index ++ [e]
          person_embeddings := t.person_embeddings ++ [(t.next_id, [e])] })) := by
  constructor
  · intro i d hs hacc
    refine ⟨resolve_matched t e th i d hd hs hacc, ?_⟩
    obtain ⟨hi, _, _, _⟩ := search1_spec e t.index i d hs
    have hi' : i < t.person_embeddings.length := by
      rw [TrackerInv.store_length t hInv, ← hInv.1]
      exact hi
    exact ⟨hi', TrackerInv.store_fst t hInv i hi'⟩
  · intro hmiss
    have hmiss' : t.index = [] ∨ ∃ i d, search1 e t.index = some (i, d) ∧ th < d := by
      rcases hmiss with h | h
      · exact Or.inl h
      · by_cases hempty : t.index = []
        · exact Or.inl hempty
        · obtain ⟨i, d, hs⟩ := search1_isSome e t.index hempty
          exact Or.inr ⟨i, d, hs, h i d hs⟩
    rw [resolve_minted t e th hd hmiss',
      recordEmbedding_new _ _ _ (TrackerInv.fresh t hInv)]

theorem C2_resolve_functional_spec_witness :
    t0.resolve [0, 0] (7/10) = .ok (0, t0) ∧
    ∃ hi : 0 < t0.person_embeddings.length, (t0.person_embeddings.get ⟨0, hi⟩).1 = 0 :=
  (C2_resolve_functional_spec t0 [0, 0] (7/10) t0_inv rfl).1 0 0 search_t0 (by norm_num)

/-- C3: an input vector whose length differs from the configured dimension
is rejected with `MalformedEmbedding` propagated to the caller — the faiss
`search`/`add` shape assertion fires on every path, so the vector is never
truncated, padded or stored. -/
theorem C3_malformed_embedding_rejected (t : PersonTracker) (e : List ℚ) (th : ℚ)
    (hd : e.length ≠ t.dimension) :
    t.resolve e th = .error .MalformedEmbedding :=
  resolve_malformed t e th hd

theorem C3_malformed_embedding_rejected_witness :
    ([(1:ℚ)].length ≠ PersonTracker.init.dimension) ∧
    PersonTracker.init.resolve [1] (7/10) = .error .MalformedEmbedding :=
  ⟨by decide, C3_malformed_embedding_rejected PersonTracker.init [1] (7/10) (by decide)⟩

/-- C4: slot/identity lock-step.  After any sequence of resolve calls from a
fresh tracker, the identities recorded in the embedding store, in insertion
order, are exactly the identities returned by the minting calls in minting
order (`mints` collects, in order, the returned identity of every call that
grew the index, i.e. the call that created each slot), and the index has
exactly one slot per minting call; every minted identity was indeed returned
to the caller. -/
theorem C4_slot_identity_lockstep (th : ℚ) (es : List (List ℚ))
    (hwf : ∀ e ∈ es, e.length = PersonTracker.init.dimension)
    (ids mints : List ℕ) (s : PersonTracker)
    (hrun : resolveAll th PersonTracker.init es = .ok (ids, mints, s)) :
    s.person_embeddings.map Prod.fst = mints ∧
    s.index.length = mints.length ∧
    ∀ m ∈ mints, m ∈ ids := by
  obtain ⟨ids', mints', s', hrun', hInvS, _, _, hmints, _, hsub⟩ :=
    resolveAll_ok th es PersonTracker.init TrackerInv_init hwf
  rw [hrun] at hrun'
  obtain ⟨hi, hm, hs⟩ := okTriple_inj hrun'
  subst hi
  subst hm
  subst hs
  have hrange : mints = List.range s.next_id := by
    rw [hmints, List.range_eq_range']
    norm_num [PersonTracker.init]
  refine ⟨?_, ?_, hsub⟩
  · rw [hInvS.2.1, hrange]
  · rw [hInvS.1, hrange, List.length_range]

theorem C4_slot_identity_lockstep_witness :
    cexS1.person_embeddings.map Prod.fst = [0] ∧
    cexS1.index.length = [0].length ∧
    ∀ m ∈ ([0] : List ℕ), m ∈ ([0] : List ℕ) :=
  C4_slot_identity_lockstep (7/10) [exA] (by intro e he; rw [List.mem_singleton.mp he]; decide)
    [0] [0] cexS1 run_A

/-- C5: idempotent re-match.  For a non-negative threshold, resolving an
embedding `e` that is already stored in the index returns the slot at which
`e` was first inserted (which, by the lock-step invariant, is the identity
assigned to `e` — the store entry at that position carries that same
identity) and leaves the state, in particular the index size, unchanged:
`e`'s distance to itself is 0, which is at most any non-negative
threshold. -/
theorem C5_idempotent_rematch (t : PersonTracker) (e : List ℚ) (th : ℚ)
    (hInv : TrackerInv t) (hth : 0 ≤ th) (he : e ∈ t.index) :
    t.resolve e th = .ok (firstSlot e t.index, t) ∧
    ∃ hi : firstSlot e t.index < t.person_embeddings.length,
      (t.person_embeddings.get ⟨firstSlot e t.index, hi⟩).1 = firstSlot e t.index := by
  have hd : e.length = t.dimension := hInv.2.2.2 e he
  have hne : t.index ≠ [] := by
    intro h
    rw [h] at he
    simp at he
  obtain ⟨i, d, hs⟩ := search1_isSome e t.index hne
  obtain ⟨hi, hdist, hmin, hfirst⟩ := search1_spec e t.index i d hs
  obtain ⟨k, hk⟩ := List.mem_iff_get.mp he
  have hd0 : d = 0 := by
    have h1 : d ≤ sqDist e (t.index.get k) := hmin k.1 k.2
    rw [hk, sqDist_self] at h1
    have h2 : 0 ≤ d := by
      rw [hdist]
      exact sqDist_nonneg _ _
    linarith
  have hgi : t.index.get ⟨i, hi⟩ = e := by
    have hlen : e.length = (t.index.get ⟨i, hi⟩).length := by
      rw [hd, hInv.2.2.2 _ (t.index.get_mem i hi)]
    have hz : sqDist e (t.index.get ⟨i, hi⟩) = 0 := by
      rw [← hdist]
      exact hd0
    exact ((sqDist_eq_zero _ _ hlen).mp hz).symm
  have hfo : ∀ j (hj : j < t.index.length), j < i → t.index.get ⟨j, hj⟩ ≠ e := by
    intro j hj hji heq
    have hlt := hfirst j hj hji
    rw [heq, sqDist_self, hd0] at hlt
    exact lt_irrefl 0 hlt
  have hslot : firstSlot e t.index = i := firstSlot_of_first e t.index i hi hgi hfo
  have hi' : firstSlot e t.index < t.person_embeddings.length := by
    rw [TrackerInv.store_length t hInv, ← hInv.1, hslot]
    exact hi
  refine ⟨?_, hi', TrackerInv.store_fst t hInv _ hi'⟩
  rw [hslot]
  exact resolve_matched t e th i d hd hs (by rw [hd0]; exact hth)

theorem C5_idempotent_rematch_witness :
    t0.resolve [0, 0] 1 = .ok (firstSlot [0, 0] t0.index, t0) ∧
    ∃ hi : firstSlot [0, 0] t0.index < t0.person_embeddings.length,
      (t0.person_embeddings.get ⟨firstSlot [0, 0] t0.index, hi⟩).1
        = firstSlot [0, 0] t0.index :=
  C5_idempotent_rematch t0 [0, 0] 1 t0_inv (by norm_num) (by simp [t0])

/-- C6: frame effect of an accepted match.  When the nearest distance is
within the threshold the call returns the matched slot together with the
*unchanged* state: the index contents, the store contents and `next_id` are
all exactly those of the input state — no embedding is inserted for the
matched identity. -/
theorem C6_accepted_match_leaves_state_unchanged (t : PersonTracker) (e : List ℚ)
    (th : ℚ) (i : ℕ) (d : ℚ) (hd : e.length = t.dimension)
    (hs : search1 e t.index = some (i, d)) (hacc : d ≤ th) :
    t.resolve e th = .ok (i, t) :=
  resolve_matched t e th i d hd hs hacc

theorem C6_accepted_match_leaves_state_unchanged_witness :
    cexS2.resolve exC 16 = .ok (1, cexS2) :=
  C6_accepted_match_leaves_state_unchanged cexS2 exC 16 1 16 (by decide)
    searchC_S2 (by norm_num)

/-- C7: monotone identity counter.  Along any run from a fresh tracker,
`next_id` never decreases from a prefix to the full sequence, at every
prefix `next_id` equals the number of identities minted so far, the minted
identities never repeat, and every minted identity lies in
`[0, next_id)`. -/
theorem C7_monotonic_identity_counter (th : ℚ) (es1 es2 : List (List ℚ))
    (h1 : ∀ e ∈ es1, e.length = PersonTracker.init.dimension)
    (h2 : ∀ e ∈ es2, e.length = PersonTracker.init.dimension)
    (ids1 m1 : List ℕ) (s1 : PersonTracker)
    (ids12 m12 : List ℕ) (s12 : PersonTracker)
    (hr1 : resolveAll th PersonTracker.init es1 = .ok (ids1, m1, s1))
    (hr12 : resolveAll th PersonTracker.init (es1 ++ es2) = .ok (ids12, m12, s12)) :
    s1.next_id ≤ s12.next_id ∧
    m1.length = s1.next_id ∧
    m12.length = s12.next_id ∧
    m12.Nodup ∧
    ∀ m ∈ m12, m < s12.next_id := by
  obtain ⟨ids1', m1', s1', hr1', hInv1, hdim1, _, hm1, _, _⟩ :=
    resolveAll_ok th es1 PersonTracker.init TrackerInv_init h1
  rw [hr1] at hr1'
  obtain ⟨hia, hma, hsa⟩ := okTriple_inj hr1'
  subst hia
  subst hma
  subst hsa
  obtain ⟨ids2, m2, s2, hr2, hInv2, hdim2, hle2, hm2, hids2, _⟩ :=
    resolveAll_ok th es2 s1 hInv1 (by rw [hdim1]; exact h2)
  have happ := resolveAll_append th es1 es2 PersonTracker.init ids1 m1 s1 ids2 m2 s2 hr1 hr2
  rw [hr12] at happ
  obtain ⟨hib, hmb, hsb⟩ := okTriple_inj happ.symm
  subst hib
  subst hmb
  subst hsb
  have hm1' : m1 = List.range' 0 s1.next_id := by
    rw [hm1]
    norm_num [PersonTracker.init]
  have hm12 : m1 ++ m2 = List.range' 0 s2.next_id := by
    rw [hm1', hm2]
    have := List.range'_append_1 0 s1.next_id (s2.next_id - s1.next_id)
    rw [Nat.zero_add] at this
    rw [this]
    congr 1
    omega
  refine ⟨hle2, ?_, ?_, ?_, ?_⟩
  · rw [hm1', List.length_range']
  · rw [hm12, List.length_range']
  · rw [hm12, ← List.range_eq_range']
    exact List.nodup_range _
  · intro m hm
    rw [hm12, ← List.range_eq_range'] at hm
    exact List.mem_range.mp hm

theorem C7_monotonic_identity_counter_witness :
    cexS1.next_id ≤ cexT2.next_id ∧
    ([0] : List ℕ).length = cexS1.next_id ∧
    ([0, 1] : List ℕ).length = cexT2.next_id ∧
    ([0, 1] : List ℕ).Nodup ∧
    ∀ m ∈ ([0, 1] : List ℕ), m < cexT2.next_id :=
  C7_monotonic_identity_counter (7/10) [exA] [exC]
    (by intro e he; rw [List.mem_singleton.mp he]; decide)
    (by intro e he; rw [List.mem_singleton.mp he]; decide)
    [0] [0] cexS1 [0, 1] [0, 1] cexT2 run_A run_AC

/-- C8, counterexample: the nearest-neighbour operation does *not* return
the Euclidean (L2) distance.  With one stored vector `[0]` and query `[3]`
the Euclidean distance is 3 (the non-negative number whose square is the
squared-L2 distance), but the operation returns 9, the squared Euclidean
distance — `faiss.IndexFlatL2`'s native metric, which is also what the
threshold of `match_reid_embedding` is compared against. -/
theorem C8_l2_distance_counterexample :
    search1 [3] [[0]] = some (0, 9) ∧
    (0 ≤ (3 : ℚ) ∧ (3 : ℚ) ^ 2 = sqDist [3] [0]) ∧
    (9 : ℚ) ≠ 3 := by
  have hd : sqDist [(3:ℚ)] [0] = 9 := by
    rw [sqDist_cons, sqDist_nil_left]
    norm_num
  refine ⟨?_, ⟨by norm_num, by rw [hd]; norm_num⟩, by norm_num⟩
  have h : search1 [(3:ℚ)] [[0]] = some (0, sqDist [3] [0]) := rfl
  rw [hd] at h
  exact h

/-- C8, amended: the nearest-neighbour operation computes the *squared*
Euclidean (L2) distance between the query and every indexed vector and
returns the slot and squared distance of the minimum, returning nothing
when the index is empty; when two stored vectors tie at exactly the minimal
distance, the lowest (first-inserted) slot number is returned. -/
theorem C8_nearest_squared_l2_spec (q : List ℚ) (idx : List (List ℚ))
    (hne : idx ≠ []) :
    search1 q [] = none ∧
    ∃ i d, search1 q idx = some (i, d) ∧
      ∃ hi : i < idx.length,
        d = sqDist q (idx.get ⟨i, hi⟩) ∧
        (∀ j (hj : j < idx.length), d ≤ sqDist q (idx.get ⟨j, hj⟩)) ∧
        (∀ j (hj : j < idx.length), j < i → d < sqDist q (idx.get ⟨j, hj⟩)) := by
  refine ⟨rfl, ?_⟩
  obtain ⟨i, d, hs⟩ := search1_isSome q idx hne
  exact ⟨i, d, hs, search1_spec q idx i d hs⟩

theorem C8_nearest_squared_l2_spec_witness :
    search1 [3] [] = none ∧
    ∃ i d, search1 [3] [[0], [3]] = some (i, d) ∧
      ∃ hi : i < ([[0], [3]] : List (List ℚ)).length,
        d = sqDist [3] (([[0], [3]] : List (List ℚ)).get ⟨i, hi⟩) ∧
        (∀ j (hj : j < ([[0], [3]] : List (List ℚ)).length),
          d ≤ sqDist [3] (([[0], [3]] : List (List ℚ)).get ⟨j, hj⟩)) ∧
        (∀ j (hj : j < ([[0], [3]] : List (List ℚ)).length), j < i →
          d < sqDist [3] (([[0], [3]] : List (List ℚ)).get ⟨j, hj⟩)) :=
  C8_nearest_squared_l2_spec [3] [[0], [3]] (by simp)

/-- C9: after any sequence of resolve calls from a fresh tracker the number
of vectors in the index equals `next_id`, and every identity returned to
the caller — in particular a matched slot number used directly as a global
identity — is a previously minted identity strictly below `next_id`. -/
theorem C9_index_size_equals_next_id (th : ℚ) (es : List (List ℚ))
    (hwf : ∀ e ∈ es, e.length = PersonTracker.init.dimension)
    (ids mints : List ℕ) (s : PersonTracker)
    (hrun : resolveAll th PersonTracker.init es = .ok (ids, mints, s)) :
    s.index.length = s.next_id ∧
    ∀ id ∈ ids, id ∈ mints ∧ id < s.next_id := by
  obtain ⟨ids', mints', s', hrun', hInvS, _, _, hmints, hids, _⟩ :=
    resolveAll_ok th es PersonTracker.init TrackerInv_init hwf
  rw [hrun] at hrun'
  obtain ⟨hia, hma, hsa⟩ := okTriple_inj hrun'
  subst hia
  subst hma
  subst hsa
  have hrange : mints = List.range s.next_id := by
    rw [hmints, List.range_eq_range']
    norm_num [PersonTracker.init]
  refine ⟨hInvS.1, ?_⟩
  intro id hid
  have hlt := hids id hid
  refine ⟨?_, hlt⟩
  rw [hrange]
  exact List.mem_range.mpr hlt

theorem C9_index_size_equals_next_id_witness :
    cexT2.index.length = cexT2.next_id ∧
    ∀ id ∈ ([0, 1] : List ℕ), id ∈ ([0, 1] : List ℕ) ∧ id < cexT2.next_id :=
  C9_index_size_equals_next_id (7/10) [exA, exC]
    (by
      intro e he
      rcases List.mem_cons.mp he with rfl | he
      · decide
      · rw [List.mem_singleton.mp he]; decide)
    [0, 1] [0, 1] cexT2 run_AC

/-- C10: after any sequence of resolve calls from a fresh tracker the
embedding store maps each minted identity to exactly one embedding — the
vector of the index slot created at minting time; no identity ever
accumulates a second embedding (matched calls never record). -/
theorem C10_store_single_embedding_per_identity (th : ℚ) (es : List (List ℚ))
    (hwf : ∀ e ∈ es, e.length = PersonTracker.init.dimension)
    (ids mints : List ℕ) (s : PersonTracker)
    (hrun : resolveAll th PersonTracker.init es = .ok (ids, mints, s)) :
    s.person_embeddings.map Prod.snd = s.index.map (fun e => [e]) ∧
    ∀ p ∈ s.person_embeddings, p.2.length = 1 := by
  obtain ⟨ids', mints', s', hrun', hInvS, _, _, _, _, _⟩ :=
    resolveAll_ok th es PersonTracker.init TrackerInv_init hwf
  rw [hrun] at hrun'
  obtain ⟨hia, hma, hsa⟩ := okTriple_inj hrun'
  subst hia
  subst hma
  subst hsa
  refine ⟨hInvS.2.2.1, ?_⟩
  intro p hp
  have hm : p.2 ∈ s.person_embeddings.map Prod.snd := List.mem_map_of_mem _ hp
  rw [hInvS.2.2.1] at hm
  obtain ⟨e, _, he⟩ := List.mem_map.mp hm
  rw [← he]
  rfl

theorem C10_store_single_embedding_per_identity_witness :
    cexT2.person_embeddings.map Prod.snd = cexT2.index.map (fun e => [e]) ∧
    ∀ p ∈ cexT2.person_embeddings, p.2.length = 1 :=
  C10_store_single_embedding_per_identity (7/10) [exA, exC]
    (by
      intro e he
      rcases List.mem_cons.mp he with rfl | he
      · decide
      · rw [List.mem_singleton.mp he]; decide)
    [0, 1] [0, 1] cexT2 run_AC
